import Mathlib

/-!
# I2C intercept for the Sony 27V66: shallow embedding of `src/main.cpp`

The program sits between the MICOM (upstream master) and the Jungle chip
(downstream device).  Three routines of `main.cpp` are embedded here:

* `slaveReceive` (lines 70-75), the receive interrupt handler,
* `slaveRequest` (lines 83-89), the poll interrupt handler,
* `loop` (lines 91-133), the forwarding pass of the main loop.

Bytes are natural numbers below 256.  The working array `data` of `loop` is a
list of cells; a cell is `none` until it is written, and an index outside the
array is reported as a `Fault` instead of being given a meaning.
-/

namespace I2cIntercept

/-! ## Data model -/

/-- Capacity of `CircularBuffer<byte, 64> sBuf` (line 33). -/
def capacity : Nat := 64

/-- The array `byte dataInit[] = {0x00, 0x85}` (line 43). -/
def dataInit : List Nat := [0x00, 0x85]

/-- The array `byte dataOK[] = {0x40, 0x85}` (line 44). -/
def dataOK : List Nat := [0x40, 0x85]

/-- Program state together with the observable bus traffic.

* `sBuf`: contents of the circular buffer, oldest byte first;
* `mRCount`: the global `volatile byte mRCount`;
* `slaveRx`: bytes the target interface `Slave` holds for `Slave.read()`;
* `slaveTx`: the replies handed to `Slave.write`, oldest first;
* `masterTx`: the transmissions issued on `Master`, each an address and a
  payload, oldest first;
* `drained`: history variable, every byte returned by `sBuf.shift()` so far,
  in the order of the calls (it is not a variable of the source). -/
structure Sys where
  sBuf : List Nat
  mRCount : Nat
  slaveRx : List Nat
  slaveTx : List (List Nat)
  masterTx : List (Nat × List Nat)
  drained : List Nat
deriving DecidableEq, Repr

/-- State after `setup()`: empty buffer, `mRCount = 0`, no traffic yet. -/
def init : Sys :=
  { sBuf := [], mRCount := 0, slaveRx := [], slaveTx := [], masterTx := [], drained := [] }

/-- Outcomes of an array access that the C program gives no meaning to, and
exhaustion of the iteration budget of the drain loop. -/
inductive Fault where
  | outOfBounds (index size : Nat)
  | uninitialised (index : Nat)
  | fuel
deriving DecidableEq, Repr

deriving instance DecidableEq for Except

/-! ## The circular buffer -/

/-- Modelled from the spec: `CircularBuffer::push` of the CircularBuffer
library, whose source is not part of the repository.  A byte is appended at
the tail; on a full buffer the spec's policy is a silent drop ("when full ...
this implementation silently drops"). -/
def push (buf : List Nat) (c : Nat) : List Nat :=
  if buf.length < capacity then buf ++ [c] else buf

/-! ## Inbound capture: `slaveReceive` -/

/-- The loop `while (Slave.available()) { byte c = Slave.read(); sBuf.push(c); }`
(lines 71-74): the first argument is what the interface still holds, the
second the buffer. -/
def receiveLoop : List Nat → List Nat → List Nat
  | [], buf => buf
  | c :: rx, buf => receiveLoop rx (push buf c)

/-- The handler `void slaveReceive(int n)` (lines 70-75).  The argument `n` is
not used by the body. -/
def slaveReceive (_n : Int) (s : Sys) : Sys :=
  { s with sBuf := receiveLoop s.slaveRx s.sBuf, slaveRx := [] }

/-- The bus transport receives the bytes `rx` and calls the receive handler
with their count. -/
def capture (rx : List Nat) (s : Sys) : Sys :=
  slaveReceive rx.length { s with slaveRx := rx }

/-! ## Outbound responder: `slaveRequest` -/

/-- The handler `void slaveRequest()` (lines 83-89):
`if (mRCount > 7) Slave.write(dataInit, 2); else Slave.write(dataOK, 2);`. -/
def slaveRequest (s : Sys) : Sys :=
  if s.mRCount > 7 then
    { s with slaveTx := s.slaveTx ++ [dataInit.take 2] }
  else
    { s with slaveTx := s.slaveTx ++ [dataOK.take 2] }

/-! ## Forwarding engine: `loop` -/

/-- The assignment `data[i] = v` on an array of `data.length` cells. -/
def store (data : List (Option Nat)) (i v : Nat) : Except Fault (List (Option Nat)) :=
  if i < data.length then .ok (data.set i (some v)) else .error (.outOfBounds i data.length)

/-- The read `data[i]`. -/
def fetch (data : List (Option Nat)) (i : Nat) : Except Fault Nat :=
  match data.get? i with
  | none => .error (.outOfBounds i data.length)
  | some none => .error (.uninitialised i)
  | some (some v) => .ok v

/-- The capture, if any, that preempts the main loop at one point of the
schedule. -/
def preempt (rx : Option (List Nat)) (s : Sys) : Sys :=
  match rx with
  | none => s
  | some bytes => capture bytes s

/-- The drain loop (lines 97-101):
`while (!sBuf.isEmpty()) { byte d = sBuf.shift(); data[i] = d; ++i; }`.

`sched` lists the captures that preempt the loop: its first element runs just
before the next evaluation of the loop condition, the second before the one
after that, and so on; with `sched = []` nothing preempts the loop.  The
first argument bounds the number of iterations. -/
def drainLoop : Nat → List (List Nat) → Sys → List (Option Nat) → Nat →
    Except Fault (List (Option Nat) × Sys)
  | 0, _, _, _, _ => .error .fuel
  | fuel + 1, sched, s, data, i =>
    let s0 := preempt sched.head? s
    match s0.sBuf with
    | [] => .ok (data, s0)
    | d :: rest =>
      match store data i d with
      | .error e => .error e
      | .ok data1 =>
        drainLoop fuel sched.tail
          { s0 with sBuf := rest, drained := s0.drained ++ [d] } data1 ((i + 1) % 256)

/-- The `switch (data[0])` of lines 110-125. -/
def maskRule (data : List (Option Nat)) : Except Fault (List (Option Nat)) :=
  match fetch data 0 with
  | .error e => .error e
  | .ok a =>
    if a = 0x9 then
      match fetch data 2 with
      | .error e => .error e
      | .ok v => store data 2 (v &&& 0xfe)
    else if a = 0xA then
      match fetch data 1 with
      | .error e => .error e
      | .ok v => store data 1 (v &&& 0xfe)
    else .ok data

/-- The cells `data[i], ..., data[i + n - 1]`, as `Master.write(data, bSize)`
reads them. -/
def readFrom (data : List (Option Nat)) : Nat → Nat → Except Fault (List Nat)
  | _, 0 => .ok []
  | i, n + 1 =>
    match fetch data i with
    | .error e => .error e
    | .ok v =>
      match readFrom data (i + 1) n with
      | .error e => .error e
      | .ok vs => .ok (v :: vs)

/-- One pass of `void loop()` (lines 91-130) preempted by the captures of
`sched` (see `drainLoop`).  `bSize` is a `byte`, hence the reduction modulo
256; the drain loop runs at most `bSize + 1` times, because the store of
iteration `bSize + 1` is already outside the array.  The heartbeat
`led1.update()` has no effect on the state modelled here. -/
def loopPreempted (sched : List (List Nat)) (s : Sys) : Except Fault Sys :=
  let bSize := s.sBuf.length % 256
  if bSize > 0 then
    match drainLoop (bSize + 1) sched s (List.replicate bSize none) 0 with
    | .error e => .error e
    | .ok (data, s1) =>
      match maskRule data with
      | .error e => .error e
      | .ok data1 =>
        match readFrom data1 0 bSize with
        | .error e => .error e
        | .ok payload => .ok { s1 with masterTx := s1.masterTx ++ [(0x44, payload)] }
  else .ok s

/-- One pass of `void loop()` with no interrupt taken while it runs. -/
def loop (s : Sys) : Except Fault Sys := loopPreempted [] s

/-! ## Runs of the program -/

/-- What can happen between two instructions of the main program: the bus
transport calls `slaveReceive(n)` with the bytes `rx` available, it calls
`slaveRequest()`, or `loop()` runs once more. -/
inductive Event where
  | receive (n : Int) (rx : List Nat)
  | poll
  | pass
deriving DecidableEq, Repr

/-- One event, executed atomically. -/
def step : Event → Sys → Except Fault Sys
  | .receive n rx, s => .ok (slaveReceive n { s with slaveRx := rx })
  | .poll, s => .ok (slaveRequest s)
  | .pass, s => loop s

/-- A finite sequence of events, executed in order; the run stops at the
first fault. -/
def run : List Event → Sys → Except Fault Sys
  | [], s => .ok s
  | e :: es, s =>
    match step e s with
    | .error f => .error f
    | .ok s1 => run es s1

/-- All bytes handed to the receive handler by a sequence of events, in
arrival order. -/
def received : List Event → List Nat
  | [] => []
  | .receive _ rx :: es => rx ++ received es
  | _ :: es => received es

/-- No capture of the sequence finds less room in the buffer than the bytes it
brings: `len` is the number of bytes in the buffer before the first event. -/
def fits : List Event → Nat → Bool
  | [], _ => true
  | .receive _ rx :: es, len => decide (len + rx.length ≤ capacity) && fits es (len + rx.length)
  | .poll :: es, len => fits es len
  | .pass :: es, _ => fits es 0

/-- The reply written by the `n`-th poll (counted from 1) when nothing but
polls has happened since start-up: the last reply after `n` polls. -/
def pollReply (n : Nat) : Option (List Nat) :=
  match run (List.replicate n Event.poll) init with
  | .error _ => none
  | .ok s => s.slaveTx.getLast?

/-! ## The masking rule in the words of the specification -/

/-- Byte `i` of `S` with its least-significant bit cleared; `S` itself when it
has no byte `i`. -/
def clearBit0 (S : List Nat) (i : Nat) : List Nat :=
  match S.get? i with
  | none => S
  | some v => S.set i (v &&& 0xFE)

/-- The masking rule as section 4.3 of the specification words it: a sequence
starting with the group-start address 0x09 has the bit cleared in its third
byte, one starting with the target address 0x0A in its second byte, any other
sequence passes through unmodified. -/
def maskSpec (S : List Nat) : List Nat :=
  if S.head? = some 0x09 then clearBit0 S 2
  else if S.head? = some 0x0A then clearBit0 S 1
  else S

/-- The drained sequences on which the `switch` of `loop` stays inside the
working array. -/
def maskInBounds (S : List Nat) : Prop :=
  (S.head? = some 0x09 → 3 ≤ S.length) ∧ (S.head? = some 0x0A → 2 ≤ S.length)

instance : DecidablePred maskInBounds := fun S => by
  unfold maskInBounds; exact inferInstance

/-! ## Auxiliary facts about the working array -/

theorem store_map_some (P : List Nat) (c : Option Nat) (R : List (Option Nat)) (v : Nat) :
    store (P.map some ++ c :: R) P.length v = .ok ((P ++ [v]).map some ++ R) := by
  have hlen : P.length < (P.map some ++ c :: R).length := by simp
  have hset : (P.map some ++ c :: R).set P.length (some v) = (P ++ [v]).map some ++ R := by
    have h : (P.map some ++ c :: R).set P.length (some v)
        = P.map some ++ (c :: R).set (P.length - (P.map some).length) (some v) :=
      List.set_append_right P.length (some v) (by simp)
    simp [h]
  simp only [store, hlen, if_true, hset]

theorem fetch_map_some (S : List Nat) (i v : Nat) (h : S.get? i = some v) :
    fetch (S.map some) i = .ok v := by
  simp [fetch, List.get?_eq_getElem?, List.getElem?_map] at h ⊢
  simp [h]

theorem store_full (S : List Nat) (i v : Nat) (h : i < S.length) :
    store (S.map some) i v = .ok ((S.set i v).map some) := by
  simp [store, h, List.map_set]

theorem readFrom_map_some (S : List Nat) :
    ∀ (n i : Nat), i + n ≤ S.length → readFrom (S.map some) i n = .ok ((S.drop i).take n) := by
  intro n
  induction n with
  | zero => intro i _; simp [readFrom]
  | succ n ih =>
    intro i h
    have hi : i < S.length := by omega
    have hf : fetch (S.map some) i = .ok (S.get ⟨i, hi⟩) :=
      fetch_map_some S i _ (by simp [List.get?_eq_getElem?, List.getElem?_eq_getElem hi])
    have hr := ih (i + 1) (by omega)
    simp only [readFrom, hf, hr]
    congr 1
    rw [List.drop_eq_getElem_cons hi, List.take_succ_cons]
    rfl

theorem readFrom_all (S : List Nat) : readFrom (S.map some) 0 S.length = .ok S := by
  have h := readFrom_map_some S S.length 0 (by omega)
  simpa using h

/-! ## The drain loop without preemption -/

theorem drainLoop_atomic (S : List Nat) :
    ∀ (P : List Nat) (fuel : Nat) (s : Sys), s.sBuf = S → S.length < fuel →
      P.length + S.length < 256 →
      drainLoop fuel [] s (P.map some ++ List.replicate S.length none) P.length
        = .ok ((P ++ S).map some, { s with sBuf := [], drained := s.drained ++ S }) := by
  induction S with
  | nil =>
    intro P fuel s hs hfuel _
    obtain ⟨f, rfl⟩ : ∃ f, fuel = f + 1 := ⟨fuel - 1, by simp at hfuel; omega⟩
    cases s
    simp only at hs
    subst hs
    simp [drainLoop, preempt]
  | cons d rest ih =>
    intro P fuel s hs hfuel h256
    obtain ⟨f, rfl⟩ : ∃ f, fuel = f + 1 := ⟨fuel - 1, by simp at hfuel; omega⟩
    simp only [List.length_cons] at hfuel h256
    have hstore := store_map_some P none (List.replicate rest.length none) d
    have hmod : (P.length + 1) % 256 = (P ++ [d]).length := by
      rw [Nat.mod_eq_of_lt (by omega)]; simp
    have hih := ih (P ++ [d]) f { s with sBuf := rest, drained := s.drained ++ [d] } rfl
      (by omega) (by simp; omega)
    cases s
    simp only at hs
    subst hs
    simp only [drainLoop, preempt, List.head?_nil, List.tail_nil, List.length_cons,
      List.replicate_succ, hstore, hmod]
    rw [hih]
    simp

/-! ## The masking step and the whole pass -/

theorem clearBit0_length (S : List Nat) (i : Nat) : (clearBit0 S i).length = S.length := by
  unfold clearBit0
  cases S.get? i <;> simp

theorem maskSpec_length (S : List Nat) : (maskSpec S).length = S.length := by
  unfold maskSpec
  split
  · exact clearBit0_length S 2
  · split
    · exact clearBit0_length S 1
    · rfl

theorem maskRule_ok (S : List Nat) (hne : S ≠ []) (hin : maskInBounds S) :
    maskRule (S.map some) = .ok ((maskSpec S).map some) := by
  obtain ⟨h9, hA⟩ := hin
  match S, hne with
  | a :: T, _ =>
    have hf0 : fetch ((a :: T).map some) 0 = .ok a := fetch_map_some _ 0 a rfl
    by_cases ha9 : a = 0x9
    · subst ha9
      have hlen := h9 rfl
      match T, hlen with
      | b :: c :: U, _ =>
        have hf2 : fetch ((9 :: b :: c :: U).map some) 2 = .ok c := fetch_map_some _ 2 c rfl
        have hst := store_full (9 :: b :: c :: U) 2 (c &&& 0xfe) (by simp)
        simp only [maskRule, hf0, hf2, hst, if_true]
        simp [maskSpec, clearBit0]
    · by_cases haA : a = 0xA
      · subst haA
        have hlen := hA rfl
        match T, hlen with
        | b :: U, _ =>
          have hf1 : fetch ((0xA :: b :: U).map some) 1 = .ok b := fetch_map_some _ 1 b rfl
          have hst := store_full (0xA :: b :: U) 1 (b &&& 0xfe) (by simp)
          simp only [maskRule, hf0, hf1, hst]
          simp [maskSpec, clearBit0]
      · simp only [maskRule, hf0, ha9, haA, if_false]
        simp [maskSpec, ha9, haA]

/-- An uninterrupted pass over a buffer of 1 to 64 bytes on which the `switch`
stays in bounds: the buffer is emptied, its bytes are recorded as drained and
one transmission to 0x44 carries the masked sequence. -/
theorem loop_ok (s : Sys) (h1 : 0 < s.sBuf.length) (h64 : s.sBuf.length ≤ 64)
    (hin : maskInBounds s.sBuf) :
    loop s = .ok { s with sBuf := [], drained := s.drained ++ s.sBuf,
                          masterTx := s.masterTx ++ [(0x44, maskSpec s.sBuf)] } := by
  have hmod : s.sBuf.length % 256 = s.sBuf.length := Nat.mod_eq_of_lt (by omega)
  have hne : s.sBuf ≠ [] := by
    intro h; rw [h] at h1; simp at h1
  have hdrain := drainLoop_atomic s.sBuf [] (s.sBuf.length + 1) s rfl (by omega)
    (by simp; omega)
  simp only [List.map_nil, List.nil_append, List.length_nil] at hdrain
  have hmask := maskRule_ok s.sBuf hne hin
  have hread : readFrom ((maskSpec s.sBuf).map some) 0 s.sBuf.length = .ok (maskSpec s.sBuf) := by
    have h := readFrom_all (maskSpec s.sBuf)
    rwa [maskSpec_length] at h
  simp only [loop, loopPreempted, hmod, h1, if_true, gt_iff_lt, hdrain, hmask, hread]

theorem clearBit0_getElem?_ne (S : List Nat) (j i : Nat) (h : i ≠ j) :
    (clearBit0 S j)[i]? = S[i]? := by
  unfold clearBit0
  cases hj : S.get? j with
  | none => rfl
  | some v => simp [List.getElem?_set_ne (Ne.symm h)]

theorem clearBit0_getElem?_eq (S : List Nat) (j v : Nat) (h : S[j]? = some v) :
    (clearBit0 S j)[j]? = some (v &&& 0xFE) := by
  have hj : j < S.length := by
    by_contra hlt
    rw [List.getElem?_eq_none (by omega)] at h
    cases h
  have hget : S.get? j = some v := by simpa [List.get?_eq_getElem?] using h
  unfold clearBit0
  rw [hget]
  simp [hj]

theorem land_fe_bit0 (v : Nat) : (v &&& 0xFE).testBit 0 = false := by
  rw [Nat.testBit_and]
  have h : Nat.testBit 0xFE 0 = false := by decide
  simp [h]

theorem land_fe_bits (v k : Nat) (h1 : 1 ≤ k) (h8 : k < 8) :
    (v &&& 0xFE).testBit k = v.testBit k := by
  rw [Nat.testBit_and]
  have h : Nat.testBit 0xFE k = true := by
    interval_cases k <;> decide
  simp [h]

/-! ## Auxiliary facts about the handlers and about runs -/

theorem receiveLoop_fits (R : List Nat) :
    ∀ B : List Nat, B.length + R.length ≤ capacity → receiveLoop R B = B ++ R := by
  induction R with
  | nil => intro B _; simp [receiveLoop]
  | cons c R ih =>
    intro B h
    simp only [List.length_cons] at h
    have hpush : push B c = B ++ [c] := by
      have : B.length < capacity := by omega
      simp [push, this]
    simp only [receiveLoop, hpush]
    rw [ih (B ++ [c]) (by simp; omega)]
    simp

theorem slaveRequest_frame (s : Sys) :
    (slaveRequest s).sBuf = s.sBuf ∧ (slaveRequest s).drained = s.drained ∧
    (slaveRequest s).mRCount = s.mRCount ∧ (slaveRequest s).masterTx = s.masterTx := by
  unfold slaveRequest
  split <;> simp

theorem slaveRequest_low (s : Sys) (h : s.mRCount ≤ 7) :
    slaveRequest s = { s with slaveTx := s.slaveTx ++ [dataOK] } := by
  have : ¬ s.mRCount > 7 := by omega
  simp [slaveRequest, this, dataOK]

theorem run_polls_low (n : Nat) :
    ∀ s : Sys, s.mRCount ≤ 7 →
      run (List.replicate n Event.poll) s
        = .ok { s with slaveTx := s.slaveTx ++ List.replicate n dataOK } := by
  induction n with
  | zero => intro s _; simp [run]
  | succ n ih =>
    intro s h
    simp only [List.replicate_succ, run, step, slaveRequest_low s h]
    rw [ih { s with slaveTx := s.slaveTx ++ [dataOK] } h]
    simp

/-- The result of an uninterrupted pass, when it has one: the buffer is empty
and the bytes it held have moved, in order, to the drained history. -/
theorem loop_drains (s s1 : Sys) (h64 : s.sBuf.length ≤ 64) (h : loop s = .ok s1) :
    s1.sBuf = [] ∧ s1.drained = s.drained ++ s.sBuf := by
  have hmod : s.sBuf.length % 256 = s.sBuf.length := Nat.mod_eq_of_lt (by omega)
  by_cases h1 : 0 < s.sBuf.length
  · have hdrain := drainLoop_atomic s.sBuf [] (s.sBuf.length + 1) s rfl (by omega)
      (by simp; omega)
    simp only [List.map_nil, List.nil_append, List.length_nil] at hdrain
    simp only [loop, loopPreempted, hmod, h1, if_true, gt_iff_lt, hdrain] at h
    split at h
    · cases h
    · split at h
      · cases h
      · injection h with h
        subst h
        simp
  · have h0 : s.sBuf = [] := List.length_eq_zero.mp (by omega)
    simp only [loop, loopPreempted, h0, List.length_nil, Nat.zero_mod, gt_iff_lt,
      Nat.lt_irrefl, if_false] at h
    injection h with h
    subst h
    simp [h0]

theorem run_fifo (evs : List Event) :
    ∀ s s1 : Sys, s.sBuf.length ≤ 64 → fits evs s.sBuf.length = true → run evs s = .ok s1 →
      s1.drained ++ s1.sBuf = s.drained ++ s.sBuf ++ received evs := by
  induction evs with
  | nil =>
    intro s s1 _ _ h
    simp only [run] at h
    injection h with h
    subst h
    simp [received]
  | cons e es ih =>
    intro s s1 h64 hfit h
    cases e with
    | receive n rx =>
      simp only [fits, Bool.and_eq_true, decide_eq_true_eq] at hfit
      have hcap : s.sBuf.length + rx.length ≤ capacity := hfit.1
      simp only [run, step, slaveReceive, receiveLoop_fits rx s.sBuf hcap] at h
      have hih := ih _ s1 (by simp only [List.length_append]; unfold capacity at hcap; exact hcap)
        (by simpa using hfit.2) h
      simp only [received]
      rw [hih]
      simp
    | poll =>
      simp only [fits] at hfit
      simp only [run, step] at h
      obtain ⟨hb, hd, _, _⟩ := slaveRequest_frame s
      have hih := ih (slaveRequest s) s1 (by rw [hb]; exact h64) (by rw [hb]; exact hfit) h
      simp only [received]
      rw [hih, hb, hd]
    | pass =>
      simp only [fits] at hfit
      simp only [run, step] at h
      cases hl : loop s with
      | error f => rw [hl] at h; cases h
      | ok s2 =>
        rw [hl] at h
        obtain ⟨hb, hd⟩ := loop_drains s s2 h64 hl
        have hih := ih s2 s1 (by rw [hb]; simp) (by rw [hb]; exact hfit) h
        simp only [received]
        rw [hih, hb, hd]
        simp

theorem drainLoop_fuel (fuel : Nat) :
    ∀ (sched : List (List Nat)) (s : Sys) (data : List (Option Nat)) (i : Nat),
      data.length ≤ 255 → i ≤ data.length → data.length < i + fuel →
      drainLoop fuel sched s data i ≠ .error .fuel := by
  induction fuel with
  | zero => intro _ _ _ _ _ h1 h2; omega
  | succ f ih =>
    intro sched s data i h255 hi hf
    simp only [drainLoop]
    split
    · intro h; cases h
    · rename_i d rest _
      by_cases hlt : i < data.length
      · have hst : store data i d = .ok (data.set i (some d)) := by simp [store, hlt]
        simp only [hst]
        have hmod : (i + 1) % 256 = i + 1 := Nat.mod_eq_of_lt (by omega)
        rw [hmod]
        exact ih _ _ _ _ (by simpa using h255) (by simpa using hlt) (by simp; omega)
      · have hst : store data i d = .error (.outOfBounds i data.length) := by simp [store, hlt]
        simp only [hst]
        intro h; cases h

theorem store_ne_fuel (data : List (Option Nat)) (i v : Nat) :
    store data i v ≠ .error .fuel := by
  unfold store
  split <;> intro h <;> cases h

theorem fetch_ne_fuel (data : List (Option Nat)) (i : Nat) : fetch data i ≠ .error .fuel := by
  unfold fetch
  split <;> intro h <;> cases h

theorem maskRule_ne_fuel (data : List (Option Nat)) : maskRule data ≠ .error .fuel := by
  unfold maskRule
  split
  · rename_i e he
    intro h; injection h with h; subst h
    exact fetch_ne_fuel _ _ he
  · split
    · split
      · rename_i e he
        intro h; injection h with h; subst h
        exact fetch_ne_fuel _ _ he
      · exact store_ne_fuel _ _ _
    · split
      · split
        · rename_i e he
          intro h; injection h with h; subst h
          exact fetch_ne_fuel _ _ he
        · exact store_ne_fuel _ _ _
      · intro h; cases h

theorem readFrom_ne_fuel (data : List (Option Nat)) :
    ∀ n i : Nat, readFrom data i n ≠ .error .fuel := by
  intro n
  induction n with
  | zero => intro i h; simp [readFrom] at h
  | succ n ih =>
    intro i
    simp only [readFrom]
    split
    · rename_i e he
      intro h; injection h with h; subst h
      exact fetch_ne_fuel _ _ he
    · split
      · rename_i e he
        intro h; injection h with h; subst h
        exact ih _ he
      · intro h; cases h

/-- The iteration budget `loopPreempted` gives its drain loop is never
exhausted, whatever the buffer holds and whatever preempts the pass. -/
theorem loopPreempted_fuel (sched : List (List Nat)) (s : Sys) :
    loopPreempted sched s ≠ .error .fuel := by
  have hlt : s.sBuf.length % 256 < 256 := Nat.mod_lt _ (by decide)
  have hd := drainLoop_fuel (s.sBuf.length % 256 + 1) sched s
    (List.replicate (s.sBuf.length % 256) none) 0 (by simp; omega) (by simp) (by simp)
  unfold loopPreempted
  simp only
  split
  · split
    · rename_i e he
      intro h; injection h with h; subst h
      exact hd he
    · split
      · rename_i e he
        intro h; injection h with h; subst h
        exact maskRule_ne_fuel _ he
      · split
        · rename_i e he
          intro h; injection h with h; subst h
          exact readFrom_ne_fuel _ _ _ he
        · intro h; cases h
  · intro h; cases h

/-! ## No cell of the working array is read before it is written -/

theorem push_length_ge (B : List Nat) (c : Nat) : B.length ≤ (push B c).length := by
  unfold push
  split <;> simp

theorem receiveLoop_length_ge (R : List Nat) :
    ∀ B : List Nat, B.length ≤ (receiveLoop R B).length := by
  induction R with
  | nil => intro B; simp [receiveLoop]
  | cons c R ih =>
    intro B
    simp only [receiveLoop]
    exact Nat.le_trans (push_length_ge B c) (ih _)

theorem preempt_length_ge (rx : Option (List Nat)) (s : Sys) :
    s.sBuf.length ≤ (preempt rx s).sBuf.length := by
  cases rx with
  | none => simp [preempt]
  | some bytes =>
    simp only [preempt, capture, slaveReceive]
    exact receiveLoop_length_ge _ _

theorem drainLoop_fills (fuel : Nat) :
    ∀ (sched : List (List Nat)) (s : Sys) (P : List Nat) (m : Nat)
      (data1 : List (Option Nat)) (s1 : Sys),
      P.length + m ≤ 255 → m ≤ s.sBuf.length →
      drainLoop fuel sched s (P.map some ++ List.replicate m none) P.length = .ok (data1, s1) →
      ∃ Q : List Nat, data1 = Q.map some ∧ Q.length = P.length + m := by
  induction fuel with
  | zero => intro _ _ _ _ _ _ _ _ h; simp [drainLoop] at h
  | succ f ih =>
    intro sched s P m data1 s1 h255 hm h
    have hge := preempt_length_ge sched.head? s
    simp only [drainLoop] at h
    split at h
    · rename_i hnil
      rw [hnil] at hge
      have hlen0 : s.sBuf.length ≤ 0 := hge
      have hm0 : m = 0 := by omega
      subst hm0
      injection h with h
      injection h with h1 _
      exact ⟨P, by rw [← h1]; simp, rfl⟩
    · rename_i d rest hcons
      rw [hcons] at hge
      cases m with
      | zero =>
        have hst : store (P.map some ++ List.replicate 0 none) P.length d
            = .error (.outOfBounds P.length P.length) := by simp [store]
        rw [hst] at h
        cases h
      | succ m =>
        have hst := store_map_some P none (List.replicate m none) d
        simp only [List.replicate_succ, hst] at h
        have hmod : (P.length + 1) % 256 = (P ++ [d]).length := by
          rw [Nat.mod_eq_of_lt (by omega)]; simp
        rw [hmod] at h
        obtain ⟨Q, hQ, hlen⟩ := ih _ _ (P ++ [d]) m data1 s1 (by simp; omega)
          (by simp at hge ⊢; omega) h
        exact ⟨Q, hQ, by rw [hlen]; simp; omega⟩

theorem fetch_written (Q : List Nat) (i k : Nat) :
    fetch (Q.map some) i ≠ .error (.uninitialised k) := by
  unfold fetch
  split
  · intro h; cases h
  · rename_i hget
    simp [List.get?_eq_getElem?, List.getElem?_map] at hget
  · intro h; cases h

theorem store_written (data : List (Option Nat)) (i v k : Nat) :
    store data i v ≠ .error (.uninitialised k) := by
  unfold store
  split <;> intro h <;> cases h

theorem store_keeps_written (Q : List Nat) (i v : Nat) (data1 : List (Option Nat))
    (h : store (Q.map some) i v = .ok data1) : data1 = (Q.set i v).map some := by
  unfold store at h
  split at h
  · injection h with h
    rw [← h, List.map_set]
  · cases h

theorem maskRule_written (Q : List Nat) (k : Nat) :
    maskRule (Q.map some) ≠ .error (.uninitialised k) ∧
    ∀ data1, maskRule (Q.map some) = .ok data1 → ∃ Q1 : List Nat,
      data1 = Q1.map some ∧ Q1.length = Q.length := by
  unfold maskRule
  split
  · rename_i e he
    refine ⟨?_, fun _ h => by cases h⟩
    intro h; injection h with h; subst h
    exact fetch_written _ _ _ he
  · split
    · split
      · rename_i e he
        refine ⟨?_, fun _ h => by cases h⟩
        intro h; injection h with h; subst h
        exact fetch_written _ _ _ he
      · refine ⟨store_written _ _ _ _, fun data1 h => ?_⟩
        exact ⟨_, store_keeps_written _ _ _ _ h, by simp⟩
    · split
      · split
        · rename_i e he
          refine ⟨?_, fun _ h => by cases h⟩
          intro h; injection h with h; subst h
          exact fetch_written _ _ _ he
        · refine ⟨store_written _ _ _ _, fun data1 h => ?_⟩
          exact ⟨_, store_keeps_written _ _ _ _ h, by simp⟩
      · refine ⟨fun h => (by cases h), fun data1 h => ?_⟩
        injection h with h
        exact ⟨Q, h.symm, rfl⟩

theorem readFrom_written (Q : List Nat) (k : Nat) :
    ∀ n i : Nat, readFrom (Q.map some) i n ≠ .error (.uninitialised k) := by
  intro n
  induction n with
  | zero => intro i h; simp [readFrom] at h
  | succ n ih =>
    intro i
    simp only [readFrom]
    split
    · rename_i e he
      intro h; injection h with h; subst h
      exact fetch_written _ _ _ he
    · split
      · rename_i e he
        intro h; injection h with h; subst h
        exact ih _ he
      · intro h; cases h

theorem drainLoop_written (fuel : Nat) :
    ∀ (sched : List (List Nat)) (s : Sys) (data : List (Option Nat)) (i k : Nat),
      drainLoop fuel sched s data i ≠ .error (.uninitialised k) := by
  induction fuel with
  | zero => intro _ _ _ _ _ h; simp [drainLoop] at h
  | succ f ih =>
    intro sched s data i k
    simp only [drainLoop]
    split
    · intro h; cases h
    · split
      · rename_i e he
        intro h; injection h with h; subst h
        exact store_written _ _ _ _ he
      · exact ih _ _ _ _ _

/-- A pass never reads a cell of `data` that it has not written, whatever the
buffer holds and whatever preempts it: the only faults of a pass are
out-of-bounds accesses. -/
theorem loopPreempted_written (sched : List (List Nat)) (s : Sys) (k : Nat) :
    loopPreempted sched s ≠ .error (.uninitialised k) := by
  have hlt : s.sBuf.length % 256 < 256 := Nat.mod_lt _ (by decide)
  have hle : s.sBuf.length % 256 ≤ s.sBuf.length := Nat.mod_le _ _
  unfold loopPreempted
  simp only
  split
  · split
    · rename_i e he
      intro h; injection h with h; subst h
      exact drainLoop_written _ _ _ _ _ _ he
    · rename_i data s1 hd
      obtain ⟨Q, hQ, _⟩ := drainLoop_fills _ sched s [] (s.sBuf.length % 256) data s1
        (by simp; omega) hle (by simpa using hd)
      subst hQ
      obtain ⟨hne, hok⟩ := maskRule_written Q k
      split
      · rename_i e he
        intro h; injection h with h; subst h
        exact hne he
      · rename_i data1 hm
        obtain ⟨Q1, hQ1, _⟩ := hok data1 hm
        subst hQ1
        split
        · rename_i e he
          intro h; injection h with h; subst h
          exact readFrom_written _ _ _ _ he
        · intro h; cases h
  · intro h; cases h

/-! ## Claims about the forwarding engine -/

/-- C1: a pass over a buffer that starts with 0x09 and holds 3 to 64 bytes
issues one write to 0x44 whose payload has the length of the drained sequence,
agrees with it at every position other than 2, and holds at position 2 the
drained byte and-ed with 0xFE: bit 0 is clear, bits 1 to 7 are unchanged. -/
theorem loop_group_start_clears_bit (s : Sys) (h0 : s.sBuf.head? = some 0x09)
    (h3 : 3 ≤ s.sBuf.length) (h64 : s.sBuf.length ≤ 64) :
    ∃ (out : List Nat) (b : Nat),
      loop s = .ok { s with sBuf := [], drained := s.drained ++ s.sBuf,
                            masterTx := s.masterTx ++ [(0x44, out)] } ∧
      out.length = s.sBuf.length ∧
      (∀ i, i ≠ 2 → out[i]? = s.sBuf[i]?) ∧
      s.sBuf[2]? = some b ∧ out[2]? = some (b &&& 0xFE) ∧
      (b &&& 0xFE).testBit 0 = false ∧
      (∀ k, 1 ≤ k → k < 8 → (b &&& 0xFE).testBit k = b.testBit k) := by
  have hin : maskInBounds s.sBuf := ⟨fun _ => h3, fun hA => by rw [h0] at hA; cases hA⟩
  have hb : s.sBuf[2]? = some (s.sBuf[2]) := List.getElem?_eq_getElem (by omega)
  have hspec : maskSpec s.sBuf = clearBit0 s.sBuf 2 := by simp [maskSpec, h0]
  refine ⟨maskSpec s.sBuf, s.sBuf[2], loop_ok s (by omega) h64 hin, maskSpec_length _, ?_, hb,
    ?_, land_fe_bit0 _, land_fe_bits _⟩
  · intro i hi
    rw [hspec]
    exact clearBit0_getElem?_ne _ 2 i hi
  · rw [hspec]
    exact clearBit0_getElem?_eq _ 2 _ hb

/-- Witness for C1: the buffer {0x09, 0x01, 0x03} is forwarded as
{0x09, 0x01, 0x02}. -/
theorem loop_group_start_clears_bit_witness :
    loop { init with sBuf := [0x09, 0x01, 0x03] }
        = .ok { init with drained := [0x09, 0x01, 0x03],
                          masterTx := [(0x44, [0x09, 0x01, 0x02])] } ∧
    ∃ (out : List Nat) (b : Nat),
      loop { init with sBuf := [0x09, 0x01, 0x03] }
        = .ok { init with drained := [0x09, 0x01, 0x03], masterTx := [(0x44, out)] } ∧
      out.length = 3 ∧
      (∀ i, i ≠ 2 → out[i]? = [0x09, 0x01, 0x03][i]?) ∧
      [0x09, 0x01, 0x03][2]? = some b ∧ out[2]? = some (b &&& 0xFE) ∧
      (b &&& 0xFE).testBit 0 = false ∧
      (∀ k, 1 ≤ k → k < 8 → (b &&& 0xFE).testBit k = b.testBit k) :=
  ⟨by decide,
   loop_group_start_clears_bit { init with sBuf := [0x09, 0x01, 0x03] } (by decide) (by decide)
     (by decide)⟩

/-- C2: a pass over a buffer that starts with 0x0A and holds 2 to 64 bytes
issues one write to 0x44 whose payload has the length of the drained sequence,
agrees with it at every position other than 1, and holds at position 1 the
drained byte and-ed with 0xFE: bit 0 is clear, bits 1 to 7 are unchanged. -/
theorem loop_target_clears_bit (s : Sys) (h0 : s.sBuf.head? = some 0x0A)
    (h2 : 2 ≤ s.sBuf.length) (h64 : s.sBuf.length ≤ 64) :
    ∃ (out : List Nat) (b : Nat),
      loop s = .ok { s with sBuf := [], drained := s.drained ++ s.sBuf,
                            masterTx := s.masterTx ++ [(0x44, out)] } ∧
      out.length = s.sBuf.length ∧
      (∀ i, i ≠ 1 → out[i]? = s.sBuf[i]?) ∧
      s.sBuf[1]? = some b ∧ out[1]? = some (b &&& 0xFE) ∧
      (b &&& 0xFE).testBit 0 = false ∧
      (∀ k, 1 ≤ k → k < 8 → (b &&& 0xFE).testBit k = b.testBit k) := by
  have hin : maskInBounds s.sBuf := ⟨fun h9 => (by rw [h0] at h9; cases h9), fun _ => h2⟩
  have hb : s.sBuf[1]? = some (s.sBuf[1]) := List.getElem?_eq_getElem (by omega)
  have hspec : maskSpec s.sBuf = clearBit0 s.sBuf 1 := by simp [maskSpec, h0]
  refine ⟨maskSpec s.sBuf, s.sBuf[1], loop_ok s (by omega) h64 hin, maskSpec_length _, ?_, hb,
    ?_, land_fe_bit0 _, land_fe_bits _⟩
  · intro i hi
    rw [hspec]
    exact clearBit0_getElem?_ne _ 1 i hi
  · rw [hspec]
    exact clearBit0_getElem?_eq _ 1 _ hb

/-- Witness for C2: the buffer {0x0A, 0x05} is forwarded as {0x0A, 0x04}. -/
theorem loop_target_clears_bit_witness :
    loop { init with sBuf := [0x0A, 0x05] }
        = .ok { init with drained := [0x0A, 0x05], masterTx := [(0x44, [0x0A, 0x04])] } ∧
    ∃ (out : List Nat) (b : Nat),
      loop { init with sBuf := [0x0A, 0x05] }
        = .ok { init with drained := [0x0A, 0x05], masterTx := [(0x44, out)] } ∧
      out.length = 2 ∧
      (∀ i, i ≠ 1 → out[i]? = [0x0A, 0x05][i]?) ∧
      [0x0A, 0x05][1]? = some b ∧ out[1]? = some (b &&& 0xFE) ∧
      (b &&& 0xFE).testBit 0 = false ∧
      (∀ k, 1 ≤ k → k < 8 → (b &&& 0xFE).testBit k = b.testBit k) :=
  ⟨by decide,
   loop_target_clears_bit { init with sBuf := [0x0A, 0x05] } (by decide) (by decide)
     (by decide)⟩

/-- C3: a pass over a buffer of 1 to 64 bytes whose first byte is neither 0x09
nor 0x0A issues one write to 0x44 whose payload is the drained sequence
itself. -/
theorem loop_pass_through (s : Sys) (a : Nat) (h0 : s.sBuf.head? = some a)
    (h9 : a ≠ 0x09) (hA : a ≠ 0x0A) (h64 : s.sBuf.length ≤ 64) :
    loop s = .ok { s with sBuf := [], drained := s.drained ++ s.sBuf,
                          masterTx := s.masterTx ++ [(0x44, s.sBuf)] } := by
  have hin : maskInBounds s.sBuf :=
    ⟨fun h => (by rw [h0] at h; exact absurd (Option.some.inj h) h9),
     fun h => (by rw [h0] at h; exact absurd (Option.some.inj h) hA)⟩
  have h1 : 0 < s.sBuf.length := by
    cases hs : s.sBuf with
    | nil => rw [hs] at h0; cases h0
    | cons _ _ => simp
  have hspec : maskSpec s.sBuf = s.sBuf := by
    simp [maskSpec, h0, h9, hA]
  have h := loop_ok s h1 h64 hin
  rwa [hspec] at h

/-- Witness for C3: the buffer {0x01, 0x02} is forwarded as {0x01, 0x02}. -/
theorem loop_pass_through_witness :
    loop { init with sBuf := [0x01, 0x02] }
      = .ok { init with drained := [0x01, 0x02], masterTx := [(0x44, [0x01, 0x02])] } :=
  loop_pass_through { init with sBuf := [0x01, 0x02] } 0x01 (by decide) (by decide) (by decide)
    (by decide)

/-! ## Claims about the outbound responder -/

/-- C4, which the code does not meet: from the initial state every poll is
answered with {0x40, 0x85}, the first seven included, because `mRCount` stays
at 0 and the branch taken for a count of at most 7 writes `dataOK`.  The claim
asks for {0x00, 0x85} at the first poll. -/
theorem pollReply_first_is_passed :
    pollReply 1 = some [0x40, 0x85] ∧ pollReply 1 ≠ some [0x00, 0x85] ∧
    ∀ n, pollReply (n + 1) = some [0x40, 0x85] := by
  have hall : ∀ n, pollReply (n + 1) = some [0x40, 0x85] := by
    intro n
    have h := run_polls_low (n + 1) init (by decide)
    simp only [pollReply, h]
    rw [show init.slaveTx = [] from rfl, List.nil_append, List.replicate_succ',
      List.getLast?_concat]
    rfl
  exact ⟨hall 0, by rw [hall 0]; decide, hall⟩

/-- C5, which the code does not meet: `slaveRequest` writes `dataOK`, that is
{0x40, 0x85}, for every counter value of at most 7 and `dataInit`, that is
{0x00, 0x85}, for every larger one, the reverse of the claimed selection; so
it does at the counter values 0 and 8. -/
theorem slaveRequest_selects_reversed :
    (slaveRequest { init with mRCount := 0 }).slaveTx = [[0x40, 0x85]] ∧
    (slaveRequest { init with mRCount := 8 }).slaveTx = [[0x00, 0x85]] ∧
    ∀ s : Sys, (slaveRequest s).slaveTx
      = s.slaveTx ++ [if s.mRCount ≤ 7 then [0x40, 0x85] else [0x00, 0x85]] := by
  refine ⟨by decide, by decide, ?_⟩
  intro s
  unfold slaveRequest
  by_cases h : s.mRCount > 7
  · have h7 : ¬ s.mRCount ≤ 7 := by omega
    simp [h, h7, dataInit]
  · have h7 : s.mRCount ≤ 7 := by omega
    simp [h, h7, dataOK]

/-- C6, which the code does not meet: `slaveRequest` leaves `mRCount` as it
found it; after a poll in the initial state the counter is still 0. -/
theorem slaveRequest_keeps_counter :
    (slaveRequest init).mRCount = 0 ∧ ∀ s : Sys, (slaveRequest s).mRCount = s.mRCount :=
  ⟨by decide, fun s => (slaveRequest_frame s).2.2.1⟩

/-! ## Claims about capture and forwarding together -/

/-- An uninterrupted capture of `S` followed by a pass, from the initial
state, for the sequences on which the `switch` stays in bounds: one write to
0x44 carries the masked sequence and the buffer is empty again. -/
theorem capture_then_pass (n : Int) (S : List Nat) (h1 : 1 ≤ S.length) (h64 : S.length ≤ 64)
    (hin : maskInBounds S) :
    run [.receive n S, .pass] init
      = .ok { init with drained := S, masterTx := [(0x44, maskSpec S)] } := by
  have hrecv : receiveLoop S [] = S := by
    have h := receiveLoop_fits S [] (by simpa [capacity] using h64)
    simpa using h
  have hloop := loop_ok { init with sBuf := S } h1 h64 hin
  simp only [run, step, slaveReceive, init, hrecv] at hloop ⊢
  rw [hloop]
  simp

/-- C7, which the code does not meet: after a capture of the single byte 0x09
into the empty buffer, the pass reads `data[2]` in a working array of one
cell; no write of one byte is issued in the model, the pass ends in an
out-of-bounds access. -/
theorem capture_then_pass_lone_group_start :
    run [.receive 1 [0x09], .pass] init = .error (.outOfBounds 2 1) := by
  decide

/-- C8: when the buffer has room for all bytes the target interface holds,
`slaveReceive` appends them to the buffer in arrival order and unaltered,
whatever its argument is; it empties the interface and changes nothing else:
no transmission is issued and `mRCount` keeps its value. -/
theorem slaveReceive_appends (n : Int) (s : Sys)
    (hroom : s.sBuf.length + s.slaveRx.length ≤ 64) :
    slaveReceive n s = { s with sBuf := s.sBuf ++ s.slaveRx, slaveRx := [] } ∧
    (slaveReceive n s).sBuf = s.sBuf ++ s.slaveRx ∧
    (slaveReceive n s).masterTx = s.masterTx ∧
    (slaveReceive n s).slaveTx = s.slaveTx ∧
    (slaveReceive n s).mRCount = s.mRCount := by
  have h := receiveLoop_fits s.slaveRx s.sBuf (by simpa [capacity] using hroom)
  simp [slaveReceive, h]

/-- Witness for C8: two buffered bytes, three bytes arriving, argument 7. -/
theorem slaveReceive_appends_witness :
    slaveReceive 7 { init with sBuf := [0x09, 0x01], slaveRx := [0x03, 0x0A, 0x05], mRCount := 4 }
      = { init with sBuf := [0x09, 0x01, 0x03, 0x0A, 0x05], mRCount := 4 } ∧
    (slaveReceive 7 { init with sBuf := [0x09, 0x01], slaveRx := [0x03, 0x0A, 0x05],
                                mRCount := 4 }).sBuf = [0x09, 0x01, 0x03, 0x0A, 0x05] ∧
    (slaveReceive 7 { init with sBuf := [0x09, 0x01], slaveRx := [0x03, 0x0A, 0x05],
                                mRCount := 4 }).masterTx = [] ∧
    (slaveReceive 7 { init with sBuf := [0x09, 0x01], slaveRx := [0x03, 0x0A, 0x05],
                                mRCount := 4 }).slaveTx = [] ∧
    (slaveReceive 7 { init with sBuf := [0x09, 0x01], slaveRx := [0x03, 0x0A, 0x05],
                                mRCount := 4 }).mRCount = 4 :=
  slaveReceive_appends 7
    { init with sBuf := [0x09, 0x01], slaveRx := [0x03, 0x0A, 0x05], mRCount := 4 } (by decide)

/-- C9: along every run of captures, polls and uninterrupted passes from the
initial state in which no capture overruns the 64-byte buffer, the bytes
drained so far, in the order they were popped and before any masking,
followed by the bytes still buffered, are the received bytes in arrival
order. -/
theorem fifo_order (evs : List Event) (s1 : Sys) (hfit : fits evs 0 = true)
    (hrun : run evs init = .ok s1) :
    s1.drained ++ s1.sBuf = received evs := by
  have h := run_fifo evs init s1 (by decide) hfit hrun
  simpa [init] using h

/-- Witness for C9: two transactions, a pass, a third transaction split over
two captures with a poll in between, a pass, and a last capture. -/
theorem fifo_order_witness :
    fits [.receive 3 [0x09, 0x01, 0x03], .receive 2 [0x0A, 0x05], .pass, .receive 1 [0x01],
          .poll, .receive 1 [0x02], .pass, .receive 2 [0x07, 0x08]] 0 = true ∧
    run [.receive 3 [0x09, 0x01, 0x03], .receive 2 [0x0A, 0x05], .pass, .receive 1 [0x01],
         .poll, .receive 1 [0x02], .pass, .receive 2 [0x07, 0x08]] init
      = .ok { init with sBuf := [0x07, 0x08], slaveTx := [[0x40, 0x85]],
                        drained := [0x09, 0x01, 0x03, 0x0A, 0x05, 0x01, 0x02],
                        masterTx := [(0x44, [0x09, 0x01, 0x02, 0x0A, 0x05]),
                                     (0x44, [0x01, 0x02])] } ∧
    [0x09, 0x01, 0x03, 0x0A, 0x05, 0x01, 0x02] ++ [0x07, 0x08]
      = received [.receive 3 [0x09, 0x01, 0x03], .receive 2 [0x0A, 0x05], .pass,
                  .receive 1 [0x01], .poll, .receive 1 [0x02], .pass, .receive 2 [0x07, 0x08]] :=
  ⟨by decide, by decide,
   fifo_order [.receive 3 [0x09, 0x01, 0x03], .receive 2 [0x0A, 0x05], .pass, .receive 1 [0x01],
               .poll, .receive 1 [0x02], .pass, .receive 2 [0x07, 0x08]]
     { init with sBuf := [0x07, 0x08], slaveTx := [[0x40, 0x85]],
                 drained := [0x09, 0x01, 0x03, 0x0A, 0x05, 0x01, 0x02],
                 masterTx := [(0x44, [0x09, 0x01, 0x02, 0x0A, 0x05]), (0x44, [0x01, 0x02])] }
     (by decide) (by decide)⟩

/-- C10, which the code does not meet: the buffer holds {0x01} when the pass
samples its size, and {0x02} is captured after the first pop.  The drain loop
runs until the buffer is empty, so it pops 0x02 as well and stores it in
`data[1]` of a working array of one cell; the claim has the pass stop after
one pop and leave 0x02 buffered. -/
theorem loopPreempted_pops_late_byte :
    loopPreempted [[], [0x02]] { init with sBuf := [0x01] } = .error (.outOfBounds 1 1) := by
  decide

/-! ## Auxiliary facts about the `switch` outside its bounds -/

theorem fetch_past_end (S : List Nat) (i : Nat) (h : S.length ≤ i) :
    fetch (S.map some) i = .error (.outOfBounds i S.length) := by
  have hnone : (S.map some).get? i = none := by
    simp [List.get?_eq_getElem?, List.getElem?_eq_none, h]
  unfold fetch
  rw [hnone]
  simp

theorem maskRule_out_of_bounds (S : List Nat) (hne : S ≠ []) (hout : ¬ maskInBounds S) :
    ∃ i, S.length ≤ i ∧ maskRule (S.map some) = .error (.outOfBounds i S.length) := by
  match S, hne with
  | a :: T, _ =>
    have hf0 : fetch ((a :: T).map some) 0 = .ok a := fetch_map_some _ 0 a rfl
    by_cases ha9 : a = 0x9
    · subst ha9
      have hlen : (9 :: T).length ≤ 2 := by
        by_contra hgt
        exact hout ⟨fun _ => by omega, fun h => by simp at h⟩
      refine ⟨2, hlen, ?_⟩
      simp only [maskRule, hf0, fetch_past_end _ 2 hlen, if_true]
    · by_cases haA : a = 0xA
      · subst haA
        have hlen : (0xA :: T).length ≤ 1 := by
          by_contra hgt
          exact hout ⟨fun h => by simp at h, fun _ => by omega⟩
        refine ⟨1, hlen, ?_⟩
        simp only [maskRule, hf0, fetch_past_end _ 1 hlen]
        simp
      · exact absurd ⟨fun h => absurd (Option.some.inj h) ha9,
          fun h => absurd (Option.some.inj h) haA⟩ hout

/-! ## The preempted pass, when it completes -/

theorem push_extends (B : List Nat) (c : Nat) : ∃ X, push B c = B ++ X := by
  unfold push
  split
  · exact ⟨[c], rfl⟩
  · exact ⟨[], by simp⟩

theorem receiveLoop_extends (R : List Nat) : ∀ B : List Nat, ∃ X, receiveLoop R B = B ++ X := by
  induction R with
  | nil => intro B; exact ⟨[], by simp [receiveLoop]⟩
  | cons c R ih =>
    intro B
    obtain ⟨X1, h1⟩ := push_extends B c
    obtain ⟨X2, h2⟩ := ih (push B c)
    refine ⟨X1 ++ X2, ?_⟩
    rw [h1] at h2
    simp only [receiveLoop, h1, h2, List.append_assoc]

theorem preempt_extends (rx : Option (List Nat)) (s : Sys) :
    (∃ X, (preempt rx s).sBuf = s.sBuf ++ X) ∧ (preempt rx s).drained = s.drained ∧
    (preempt rx s).masterTx = s.masterTx ∧ (preempt rx s).mRCount = s.mRCount ∧
    (preempt rx s).slaveTx = s.slaveTx := by
  cases rx with
  | none => exact ⟨⟨[], by simp [preempt]⟩, rfl, rfl, rfl, rfl⟩
  | some bytes =>
    obtain ⟨X, hX⟩ := receiveLoop_extends bytes s.sBuf
    exact ⟨⟨X, by simp [preempt, capture, slaveReceive, hX]⟩, rfl, rfl, rfl, rfl⟩

/-- A drain loop that completes has popped exactly the bytes `T` for which the
working array still had cells, in buffer order, and leaves the buffer empty:
whatever else was in the buffer or arrived meanwhile would have been stored
outside the array. -/
theorem drainLoop_snapshot (fuel : Nat) :
    ∀ (sched : List (List Nat)) (s : Sys) (P T X : List Nat)
      (data1 : List (Option Nat)) (s1 : Sys),
      s.sBuf = T ++ X → P.length + T.length ≤ 255 →
      drainLoop fuel sched s (P.map some ++ List.replicate T.length none) P.length
        = .ok (data1, s1) →
      data1 = (P ++ T).map some ∧ s1.sBuf = [] ∧ s1.drained = s.drained ++ T ∧
      s1.masterTx = s.masterTx ∧ s1.mRCount = s.mRCount ∧ s1.slaveTx = s.slaveTx := by
  induction fuel with
  | zero => intro _ _ _ _ _ _ _ _ _ h; simp [drainLoop] at h
  | succ f ih =>
    intro sched s P T X data1 s1 hbuf h255 h
    obtain ⟨⟨Y, hY⟩, hdr, hmt, hmc, hst⟩ := preempt_extends sched.head? s
    rw [hbuf, List.append_assoc] at hY
    simp only [drainLoop] at h
    split at h
    · rename_i hnil
      rw [hnil] at hY
      have hT : T = [] := (List.append_eq_nil.mp hY.symm).1
      subst hT
      injection h with h
      injection h with h1 h2
      subst h2
      refine ⟨by rw [← h1]; simp, hnil, by simp [hdr], hmt, hmc, hst⟩
    · rename_i d rest hcons
      rw [hcons] at hY
      cases T with
      | nil =>
        have hstore : store (P.map some ++ List.replicate ([] : List Nat).length none) P.length d
            = .error (.outOfBounds P.length P.length) := by simp [store]
        rw [hstore] at h
        cases h
      | cons t T1 =>
        simp only [List.cons_append] at hY
        injection hY with hd hrest
        subst hd
        have hstore := store_map_some P none (List.replicate T1.length none) d
        simp only [List.length_cons, List.replicate_succ, hstore] at h
        simp only [List.length_cons] at h255
        have hmod : (P.length + 1) % 256 = (P ++ [d]).length := by
          rw [Nat.mod_eq_of_lt (by omega)]; simp
        rw [hmod] at h
        obtain ⟨h1, h2, h3, h4, h5, h6⟩ := ih sched.tail _ (P ++ [d]) T1 (X ++ Y) data1 s1
          hrest (by simp; omega) h
        refine ⟨by rw [h1]; simp, h2, ?_, by rw [h4]; exact hmt, by rw [h5]; exact hmc,
          by rw [h6]; exact hst⟩
        rw [h3]
        simp [hdr]

/-- A preempted pass over a non-empty buffer that completes: the `switch`
stayed in bounds, the pass popped the sampled bytes and nothing else, and its
one transmission carries the masked sample. -/
theorem loopPreempted_completes (sched : List (List Nat)) (s s1 : Sys)
    (hne : s.sBuf ≠ []) (h64 : s.sBuf.length ≤ 64) (h : loopPreempted sched s = .ok s1) :
    maskInBounds s.sBuf ∧ s1.masterTx = s.masterTx ++ [(0x44, maskSpec s.sBuf)] ∧
    s1.sBuf = [] ∧ s1.drained = s.drained ++ s.sBuf ∧
    s1.mRCount = s.mRCount ∧ s1.slaveTx = s.slaveTx := by
  have hmod : s.sBuf.length % 256 = s.sBuf.length := Nat.mod_eq_of_lt (by omega)
  have h1 : 0 < s.sBuf.length := List.length_pos.mpr hne
  simp only [loopPreempted, hmod, h1, if_true, gt_iff_lt] at h
  cases hd : drainLoop (s.sBuf.length + 1) sched s (List.replicate s.sBuf.length none) 0 with
  | error e => rw [hd] at h; cases h
  | ok r =>
    obtain ⟨data, s2⟩ := r
    rw [hd] at h
    simp only at h
    obtain ⟨hdata, hbuf, hdr, hmt, hmc, hst⟩ := drainLoop_snapshot _ sched s [] s.sBuf [] data s2
      (by simp) (by simp; omega) (by simpa using hd)
    simp only [List.nil_append] at hdata
    subst hdata
    by_cases hin : maskInBounds s.sBuf
    · have hmask := maskRule_ok s.sBuf hne hin
      have hread : readFrom ((maskSpec s.sBuf).map some) 0 s.sBuf.length
          = .ok (maskSpec s.sBuf) := by
        have hr := readFrom_all (maskSpec s.sBuf)
        rwa [maskSpec_length] at hr
      simp only [hmask, hread] at h
      injection h with h
      subst h
      exact ⟨hin, by simp [hmt], hbuf, hdr, hmc, hst⟩
    · obtain ⟨i, _, herr⟩ := maskRule_out_of_bounds s.sBuf hne hin
      simp only [herr] at h
      cases h

/-! ## Auxiliary facts about the full buffer and about the replies of a run -/

theorem receiveLoop_full (R : List Nat) :
    ∀ B : List Nat, B.length = capacity → receiveLoop R B = B := by
  induction R with
  | nil => intro B _; rfl
  | cons c R ih =>
    intro B h
    have hpush : push B c = B := by simp [push, h]
    simp only [receiveLoop, hpush]
    exact ih B h

theorem preempt_frame (rx : Option (List Nat)) (s : Sys) :
    (preempt rx s).mRCount = s.mRCount ∧ (preempt rx s).slaveTx = s.slaveTx := by
  cases rx <;> exact ⟨rfl, rfl⟩

theorem drainLoop_frame (fuel : Nat) :
    ∀ (sched : List (List Nat)) (s : Sys) (data : List (Option Nat)) (i : Nat)
      (data1 : List (Option Nat)) (s1 : Sys),
      drainLoop fuel sched s data i = .ok (data1, s1) →
      s1.mRCount = s.mRCount ∧ s1.slaveTx = s.slaveTx := by
  induction fuel with
  | zero => intro _ _ _ _ _ _ h; simp [drainLoop] at h
  | succ f ih =>
    intro sched s data i data1 s1 h
    obtain ⟨hmc, hst⟩ := preempt_frame sched.head? s
    simp only [drainLoop] at h
    split at h
    · injection h with h
      injection h with _ h2
      subst h2
      exact ⟨hmc, hst⟩
    · split at h
      · cases h
      · obtain ⟨h1, h2⟩ := ih _ _ _ _ _ _ h
        exact ⟨by rw [h1]; exact hmc, by rw [h2]; exact hst⟩

/-- A pass, preempted or not, leaves the counter and the poll replies as they
were. -/
theorem loopPreempted_frame (sched : List (List Nat)) (s s1 : Sys)
    (h : loopPreempted sched s = .ok s1) :
    s1.mRCount = s.mRCount ∧ s1.slaveTx = s.slaveTx := by
  unfold loopPreempted at h
  simp only at h
  split at h
  · split at h
    · cases h
    · rename_i data s2 hd
      obtain ⟨h1, h2⟩ := drainLoop_frame _ _ _ _ _ _ _ hd
      split at h
      · cases h
      · split at h
        · cases h
        · injection h with h
          subst h
          exact ⟨h1, h2⟩
  · injection h with h
    subst h
    exact ⟨rfl, rfl⟩

/-- Along a run that starts with a counter of at most 7, the counter keeps its
value and every poll adds the reply `dataOK`. -/
theorem run_replies (evs : List Event) :
    ∀ s s1 : Sys, s.mRCount ≤ 7 → run evs s = .ok s1 →
      s1.mRCount = s.mRCount ∧
      s1.slaveTx = s.slaveTx ++ List.replicate (evs.count Event.poll) dataOK := by
  induction evs with
  | nil =>
    intro s s1 _ h
    simp only [run] at h
    injection h with h
    subst h
    simp
  | cons e es ih =>
    intro s s1 h7 h
    cases e with
    | receive n rx =>
      simp only [run, step] at h
      obtain ⟨h1, h2⟩ := ih _ s1 (by simpa [slaveReceive] using h7) h
      have hc : (Event.receive n rx :: es).count Event.poll = es.count Event.poll := by
        simp [List.count_cons]
      rw [hc]
      exact ⟨by rw [h1]; rfl, by rw [h2]; rfl⟩
    | poll =>
      simp only [run, step, slaveRequest_low s h7] at h
      obtain ⟨h1, h2⟩ := ih _ s1 (by simpa using h7) h
      have hc : (Event.poll :: es).count Event.poll = es.count Event.poll + 1 := by
        simp [List.count_cons]
      rw [hc]
      refine ⟨by rw [h1], ?_⟩
      rw [h2]
      simp [List.replicate_succ]
    | pass =>
      simp only [run, step] at h
      cases hl : loop s with
      | error f => rw [hl] at h; cases h
      | ok s2 =>
        rw [hl] at h
        obtain ⟨hm, ht⟩ := loopPreempted_frame [] s s2 hl
        obtain ⟨h1, h2⟩ := ih s2 s1 (by rw [hm]; exact h7) h
        have hc : (Event.pass :: es).count Event.poll = es.count Event.poll := by
          simp [List.count_cons]
        rw [hc]
        exact ⟨by rw [h1, hm], by rw [h2, ht]⟩

/-! ## Claims about the preempted pass and the empty buffer -/

theorem drainLoop_overflow (c : Nat) (U : List Nat) :
    ∀ (P : List Nat) (fuel : Nat) (sched : List (List Nat)) (s : Sys),
      (preempt sched.head? s).sBuf = U ++ [c] → sched.tail = [] → U.length < fuel →
      P.length + U.length < 255 →
      drainLoop fuel sched s (P.map some ++ List.replicate U.length none) P.length
        = .error (.outOfBounds (P.length + U.length) (P.length + U.length)) := by
  induction U with
  | nil =>
    intro P fuel sched s hbuf _ hfuel _
    obtain ⟨f, rfl⟩ : ∃ f, fuel = f + 1 := ⟨fuel - 1, by simp at hfuel; omega⟩
    simp only [drainLoop]
    split
    · rename_i hnil
      rw [hnil] at hbuf
      cases hbuf
    · rename_i d rest hcons
      have hstore : store (P.map some ++ List.replicate 0 none) P.length d
          = .error (.outOfBounds P.length P.length) := by simp [store]
      simp only [List.length_nil, hstore, Nat.add_zero]
  | cons u U ih =>
    intro P fuel sched s hbuf htail hfuel h255
    obtain ⟨f, rfl⟩ : ∃ f, fuel = f + 1 := ⟨fuel - 1, by simp at hfuel; omega⟩
    simp only [List.length_cons] at hfuel h255
    simp only [drainLoop]
    split
    · rename_i hnil
      rw [hnil] at hbuf
      cases hbuf
    · rename_i d rest hcons
      rw [hcons] at hbuf
      simp only [List.cons_append] at hbuf
      injection hbuf with hd hrest
      subst hd
      have hstore := store_map_some P none (List.replicate U.length none) d
      have hmod : (P.length + 1) % 256 = (P ++ [d]).length := by
        rw [Nat.mod_eq_of_lt (by omega)]; simp
      simp only [List.length_cons, List.replicate_succ, hstore, hmod, htail]
      have hih := ih (P ++ [d]) f []
        { preempt sched.head? s with sBuf := rest,
                                      drained := (preempt sched.head? s).drained ++ [d] }
        (by simpa [preempt] using hrest) rfl (by omega) (by simp; omega)
      rw [hih]
      simp only [List.length_append, List.length_singleton]
      congr 2 <;> omega

theorem drainLoop_late_byte (c : Nat) (k : Nat) :
    ∀ (T P : List Nat) (fuel : Nat) (s : Sys),
      s.sBuf = T → k ≤ T.length → T.length < capacity + k → T.length < fuel →
      P.length + T.length < 255 →
      drainLoop fuel (List.replicate k [] ++ [[c]]) s
          (P.map some ++ List.replicate T.length none) P.length
        = .error (.outOfBounds (P.length + T.length) (P.length + T.length)) := by
  induction k with
  | zero =>
    intro T P fuel s hs _ hroom hfuel h255
    have hpush : push s.sBuf c = T ++ [c] := by
      have hlt : T.length < capacity := by omega
      simp [push, hs, hlt]
    exact drainLoop_overflow c T P fuel [[c]] s
      (by simp [preempt, capture, slaveReceive, receiveLoop, hpush]) rfl hfuel h255
  | succ k ih =>
    intro T P fuel s hs hk hroom hfuel h255
    obtain ⟨f, rfl⟩ : ∃ f, fuel = f + 1 := ⟨fuel - 1, by omega⟩
    match T, hk with
    | d :: T1, hk =>
      simp only [List.length_cons] at hk hroom hfuel h255
      have hstore := store_map_some P none (List.replicate T1.length none) d
      have hmod : (P.length + 1) % 256 = (P ++ [d]).length := by
        rw [Nat.mod_eq_of_lt (by omega)]; simp
      have hih := ih T1 (P ++ [d]) f
        { s with sBuf := T1, slaveRx := [], drained := s.drained ++ [d] } rfl (by omega)
        (by omega) (by omega) (by simp; omega)
      simp only [drainLoop, List.replicate_succ, List.cons_append, List.head?_cons,
        List.tail_cons, preempt, capture, slaveReceive, receiveLoop, hs, List.length_cons,
        hstore, hmod]
      rw [hih]
      simp only [List.length_append, List.length_singleton]
      congr 2 <;> omega

/-- A pass over a buffer of 1 to 64 bytes during which one byte `c` is
captured after the `k`-th pop, `k` at least 1: the byte finds room, the drain
loop pops it after the sampled bytes and stores it in `data[bSize]`, one cell
past the working array; the pass does not reach `Master.write`. -/
theorem loopPreempted_late_byte (s : Sys) (c k : Nat) (hk1 : 1 ≤ k) (hk : k ≤ s.sBuf.length)
    (h64 : s.sBuf.length ≤ 64) :
    loopPreempted (List.replicate k [] ++ [[c]]) s
      = .error (.outOfBounds s.sBuf.length s.sBuf.length) := by
  have hmod : s.sBuf.length % 256 = s.sBuf.length := Nat.mod_eq_of_lt (by omega)
  have h1 : 0 < s.sBuf.length := by omega
  have hd := drainLoop_late_byte c k s.sBuf [] (s.sBuf.length + 1) s rfl hk
    (by unfold capacity; omega) (by omega) (by simp; omega)
  simp only [List.map_nil, List.nil_append, List.length_nil, Nat.zero_add] at hd
  simp only [loopPreempted, hmod, h1, if_true, gt_iff_lt, hd]

/-- C11, which the code does not meet: the buffer holds {0x09, 0x01, 0x03}
when the pass samples its size, and 0x55 is captured after the first, the
second or the third pop.  In each case the drain loop pops 0x55 as a fourth
byte and stores it in `data[3]` of a working array of three cells, so the
pass does not forward the masked sample {0x09, 0x01, 0x02} the claim
promises: it forwards nothing that the program defines. -/
theorem loopPreempted_late_byte_no_transmission :
    loopPreempted [[], [0x55]] { init with sBuf := [0x09, 0x01, 0x03] }
      = .error (.outOfBounds 3 3) ∧
    loopPreempted [[], [], [0x55]] { init with sBuf := [0x09, 0x01, 0x03] }
      = .error (.outOfBounds 3 3) ∧
    loopPreempted [[], [], [], [0x55]] { init with sBuf := [0x09, 0x01, 0x03] }
      = .error (.outOfBounds 3 3) :=
  ⟨loopPreempted_late_byte { init with sBuf := [0x09, 0x01, 0x03] } 0x55 1 (by decide)
     (by decide) (by decide),
   loopPreempted_late_byte { init with sBuf := [0x09, 0x01, 0x03] } 0x55 2 (by decide)
     (by decide) (by decide),
   loopPreempted_late_byte { init with sBuf := [0x09, 0x01, 0x03] } 0x55 3 (by decide)
     (by decide) (by decide)⟩

/-- C12: on an empty buffer a pass does nothing, whatever would preempt it:
the state, with its buffer, counter and transmissions, is returned as it
was. -/
theorem loop_empty_buffer (s : Sys) (hempty : s.sBuf = []) :
    loop s = .ok s ∧ ∀ sched, loopPreempted sched s = .ok s := by
  have hall : ∀ sched, loopPreempted sched s = .ok s := by
    intro sched
    simp [loopPreempted, hempty]
  exact ⟨hall [], hall⟩

/-- Witness for C12: an empty buffer in a state that has already seen a poll
reply and a transmission. -/
theorem loop_empty_buffer_witness :
    loop { init with mRCount := 3, slaveTx := [[0x40, 0x85]], masterTx := [(0x44, [0x01, 0x02])] }
      = .ok { init with mRCount := 3, slaveTx := [[0x40, 0x85]],
                        masterTx := [(0x44, [0x01, 0x02])] } ∧
    ∀ sched, loopPreempted sched
        { init with mRCount := 3, slaveTx := [[0x40, 0x85]], masterTx := [(0x44, [0x01, 0x02])] }
      = .ok { init with mRCount := 3, slaveTx := [[0x40, 0x85]],
                        masterTx := [(0x44, [0x01, 0x02])] } :=
  loop_empty_buffer
    { init with mRCount := 3, slaveTx := [[0x40, 0x85]], masterTx := [(0x44, [0x01, 0x02])] } rfl

/-- C13: on a buffer that holds its 64 bytes, the push of a received byte
leaves the buffer as it is, and `slaveReceive` as a whole reads every byte
the interface holds, keeps the 64 buffered bytes in their order and changes
nothing else; the handler has no failure outcome. -/
theorem slaveReceive_full_buffer (n : Int) (s : Sys) (c : Nat) (hfull : s.sBuf.length = 64) :
    push s.sBuf c = s.sBuf ∧ slaveReceive n s = { s with slaveRx := [] } := by
  have hcap : s.sBuf.length = capacity := hfull
  have h := receiveLoop_full s.slaveRx s.sBuf hcap
  exact ⟨by simp [push, hcap], by simp [slaveReceive, h]⟩

/-- Witness for C13: the buffer holds the bytes 0 to 63 and three more arrive. -/
theorem slaveReceive_full_buffer_witness :
    push (List.range 64) 0x09 = List.range 64 ∧
    slaveReceive 3 { init with sBuf := List.range 64, slaveRx := [0x09, 0x01, 0x03] }
      = { init with sBuf := List.range 64 } :=
  slaveReceive_full_buffer 3 { init with sBuf := List.range 64, slaveRx := [0x09, 0x01, 0x03] }
    0x09 (by decide)

/-! ## Further claims about the outbound responder -/

/-- C14: along every run of captures, polls and passes from the initial
state, the replies are as many as the polls and, once one of them is the
"passed" payload {0x40, 0x85}, every later one is {0x40, 0x85} too: nothing
in the program writes `mRCount`, so the responder never goes back. -/
theorem replies_stay_passed (evs : List Event) (s1 : Sys) (hrun : run evs init = .ok s1) :
    s1.slaveTx.length = evs.count Event.poll ∧
    ∀ i j, i ≤ j → j < s1.slaveTx.length → s1.slaveTx[i]? = some [0x40, 0x85] →
      s1.slaveTx[j]? = some [0x40, 0x85] := by
  obtain ⟨_, htx⟩ := run_replies evs init s1 (by decide) hrun
  have htx1 : s1.slaveTx = List.replicate (evs.count Event.poll) dataOK := by
    rw [htx]; rfl
  refine ⟨by rw [htx1]; simp, ?_⟩
  intro i j _ hj _
  rw [htx1] at hj ⊢
  rw [List.getElem?_eq_getElem hj]
  simp [dataOK]

/-- Witness for C14: a poll, a transaction captured and forwarded, two more
polls. -/
theorem replies_stay_passed_witness :
    run [.poll, .receive 2 [0x0A, 0x05], .pass, .poll, .poll] init
      = .ok { init with slaveTx := [[0x40, 0x85], [0x40, 0x85], [0x40, 0x85]],
                        drained := [0x0A, 0x05], masterTx := [(0x44, [0x0A, 0x04])] } ∧
    [[0x40, 0x85], [0x40, 0x85], [0x40, 0x85]].length
      = [Event.poll, .receive 2 [0x0A, 0x05], .pass, .poll, .poll].count Event.poll ∧
    ∀ i j, i ≤ j → j < [[0x40, 0x85], [0x40, 0x85], [0x40, 0x85]].length →
      [[0x40, 0x85], [0x40, 0x85], [0x40, 0x85]][i]? = some [0x40, 0x85] →
      [[0x40, 0x85], [0x40, 0x85], [0x40, 0x85]][j]? = some [0x40, 0x85] :=
  ⟨by decide,
   replies_stay_passed [.poll, .receive 2 [0x0A, 0x05], .pass, .poll, .poll]
     { init with slaveTx := [[0x40, 0x85], [0x40, 0x85], [0x40, 0x85]],
                 drained := [0x0A, 0x05], masterTx := [(0x44, [0x0A, 0x04])] }
     (by decide)⟩

/-- C15: two states with the same `mRCount`, whatever their buffers and the
rest of their contents, get the same two-byte reply from `slaveRequest`. -/
theorem slaveRequest_ignores_buffer (s t : Sys) (hcount : s.mRCount = t.mRCount) :
    ∃ r : List Nat, r.length = 2 ∧
      (slaveRequest s).slaveTx = s.slaveTx ++ [r] ∧
      (slaveRequest t).slaveTx = t.slaveTx ++ [r] := by
  unfold slaveRequest
  rw [hcount]
  by_cases h : t.mRCount > 7
  · exact ⟨dataInit.take 2, by decide, by simp [h], by simp [h]⟩
  · exact ⟨dataOK.take 2, by decide, by simp [h], by simp [h]⟩

/-- Witness for C15: counter 0 in both states, an empty buffer in one and
three buffered bytes in the other. -/
theorem slaveRequest_ignores_buffer_witness :
    ∃ r : List Nat, r.length = 2 ∧
      (slaveRequest init).slaveTx = init.slaveTx ++ [r] ∧
      (slaveRequest { init with sBuf := [0x09, 0x01, 0x03], slaveTx := [[0x40, 0x85]] }).slaveTx
        = [[0x40, 0x85]] ++ [r] :=
  slaveRequest_ignores_buffer init
    { init with sBuf := [0x09, 0x01, 0x03], slaveTx := [[0x40, 0x85]] } rfl

/-! ## Further claims about the masking step -/

theorem clearBit0_head (S : List Nat) (k : Nat) :
    (clearBit0 S (k + 1)).head? = S.head? := by
  unfold clearBit0
  cases S.get? (k + 1) with
  | none => rfl
  | some v =>
    cases S with
    | nil => rfl
    | cons a T => rfl

theorem clearBit0_idem (S : List Nat) (i : Nat) : clearBit0 (clearBit0 S i) i = clearBit0 S i := by
  by_cases hi : i < S.length
  · have hget : S.get? i = some S[i] := by
      simp [List.get?_eq_getElem?, List.getElem?_eq_getElem hi]
    have hfe : S[i] &&& 0xFE &&& 0xFE = S[i] &&& 0xFE := by
      rw [Nat.and_assoc, Nat.and_self]
    have hget2 : (S.set i (S[i] &&& 0xFE)).get? i = some (S[i] &&& 0xFE) := by
      simp [List.get?_eq_getElem?, hi]
    simp only [clearBit0, hget, hget2, hfe, List.set_set]
  · have hget : S.get? i = none := by
      simp [List.get?_eq_getElem?, List.getElem?_eq_none, Nat.le_of_not_lt hi]
    simp only [clearBit0, hget]

theorem maskSpec_head (S : List Nat) : (maskSpec S).head? = S.head? := by
  unfold maskSpec
  split
  · exact clearBit0_head S 1
  · split
    · exact clearBit0_head S 0
    · rfl

theorem maskSpec_idem (S : List Nat) : maskSpec (maskSpec S) = maskSpec S := by
  have hhead := maskSpec_head S
  by_cases h9 : S.head? = some 0x09
  · have h1 : maskSpec S = clearBit0 S 2 := by simp [maskSpec, h9]
    have h2 : maskSpec (clearBit0 S 2) = clearBit0 (clearBit0 S 2) 2 := by
      rw [h1, h9] at hhead
      simp [maskSpec, hhead]
    rw [h1, h2, clearBit0_idem]
  · by_cases hA : S.head? = some 0x0A
    · have h1 : maskSpec S = clearBit0 S 1 := by simp [maskSpec, hA]
      have h2 : maskSpec (clearBit0 S 1) = clearBit0 (clearBit0 S 1) 1 := by
        rw [h1, hA] at hhead
        simp [maskSpec, hhead]
      rw [h1, h2, clearBit0_idem]
    · have h1 : maskSpec S = S := by simp [maskSpec, h9, hA]
      rw [h1, h1]

theorem maskSpec_in_bounds (S : List Nat) (hin : maskInBounds S) : maskInBounds (maskSpec S) := by
  unfold maskInBounds
  rw [maskSpec_head, maskSpec_length]
  exact hin

theorem maskSpec_ne_nil (S : List Nat) (hne : S ≠ []) : maskSpec S ≠ [] := by
  intro h
  have hlen := maskSpec_length S
  rw [h] at hlen
  exact hne (List.length_eq_zero.mp hlen.symm)

/-- An uninterrupted pass over a buffer of 1 to 64 bytes completes exactly
when the `switch` stays in bounds on the drained sequence. -/
theorem loop_completes_iff (s : Sys) (hne : s.sBuf ≠ []) (h64 : s.sBuf.length ≤ 64) :
    (∃ s1, loop s = .ok s1) ↔ maskInBounds s.sBuf := by
  constructor
  · rintro ⟨s1, h⟩
    exact (loopPreempted_completes [] s s1 hne h64 h).1
  · intro hin
    exact ⟨_, loop_ok s (List.length_pos.mpr hne) h64 hin⟩

/-- C16: on a non-empty drained sequence the `switch` completes, every index
it used lying inside the working array, exactly when a sequence starting with
0x09 has at least 3 bytes and one starting with 0x0A at least 2; otherwise it
indexes the array at or past its length.  So do {0x09}, {0x09, x} and {0x0A}. -/
theorem maskRule_in_bounds_iff (S : List Nat) (hne : S ≠ []) :
    ((∃ out, maskRule (S.map some) = .ok out) ↔ maskInBounds S) ∧
    (¬ maskInBounds S →
      ∃ i, S.length ≤ i ∧ maskRule (S.map some) = .error (.outOfBounds i S.length)) ∧
    maskRule [some 0x09] = .error (.outOfBounds 2 1) ∧
    (∀ x, maskRule [some 0x09, some x] = .error (.outOfBounds 2 2)) ∧
    maskRule [some 0x0A] = .error (.outOfBounds 1 1) := by
  refine ⟨⟨?_, fun hin => ⟨_, maskRule_ok S hne hin⟩⟩, maskRule_out_of_bounds S hne,
    by decide, fun x => by simp [maskRule, fetch, store], by decide⟩
  rintro ⟨out, hout⟩
  by_contra hin
  obtain ⟨i, _, herr⟩ := maskRule_out_of_bounds S hne hin
  rw [herr] at hout
  cases hout

/-- Witness for C16: the two-byte sequence {0x09, 0x07}. -/
theorem maskRule_in_bounds_iff_witness :
    ((∃ out, maskRule ([0x09, 0x07].map some) = .ok out) ↔ maskInBounds [0x09, 0x07]) ∧
    (¬ maskInBounds [0x09, 0x07] →
      ∃ i, [0x09, 0x07].length ≤ i ∧
        maskRule ([0x09, 0x07].map some) = .error (.outOfBounds i [0x09, 0x07].length)) ∧
    maskRule [some 0x09] = .error (.outOfBounds 2 1) ∧
    (∀ x, maskRule [some 0x09, some x] = .error (.outOfBounds 2 2)) ∧
    maskRule [some 0x0A] = .error (.outOfBounds 1 1) :=
  maskRule_in_bounds_iff [0x09, 0x07] (by decide)

/-- C17: on a non-empty sequence on which the `switch` stays in bounds, the
`switch` applied to its own output returns that output, and byte 0 of the
output is byte 0 of the input. -/
theorem maskRule_idempotent (S : List Nat) (hne : S ≠ []) (hin : maskInBounds S) :
    maskRule (S.map some) = .ok ((maskSpec S).map some) ∧
    maskRule ((maskSpec S).map some) = .ok ((maskSpec S).map some) ∧
    (maskSpec S).head? = S.head? := by
  refine ⟨maskRule_ok S hne hin, ?_, maskSpec_head S⟩
  have h := maskRule_ok (maskSpec S) (maskSpec_ne_nil S hne) (maskSpec_in_bounds S hin)
  rwa [maskSpec_idem] at h

/-- Witness for C17: {0x09, 0x01, 0x03} is rewritten to {0x09, 0x01, 0x02},
which is rewritten to itself. -/
theorem maskRule_idempotent_witness :
    maskSpec [0x09, 0x01, 0x03] = [0x09, 0x01, 0x02] ∧
    maskRule ([0x09, 0x01, 0x03].map some) = .ok ((maskSpec [0x09, 0x01, 0x03]).map some) ∧
    maskRule ((maskSpec [0x09, 0x01, 0x03]).map some)
      = .ok ((maskSpec [0x09, 0x01, 0x03]).map some) ∧
    (maskSpec [0x09, 0x01, 0x03]).head? = [0x09, 0x01, 0x03].head? :=
  ⟨by decide, maskRule_idempotent [0x09, 0x01, 0x03] (by decide) (by decide)⟩

end I2cIntercept
